import Mathlib

/-!
Verification of the core viewer `lognowrap.py` of the NginxLogColorizer
repository.  The definitions below are a shallow embedding of the Python
source: strings are `List Char`, byte buffers are `List Nat`, and the
index-based loops of the source become structural recursions (with an
explicit fuel argument equal to the input length where the source loop
consumes a variable number of elements per iteration; the fuel never runs
out on the stated inputs, which the lemmas make precise).
-/

/-- The escape character; source: `ESC = "\x1b"`. -/
def ESC : Char := '\x1b'

/-- Safety cap for malformed or unbounded input; source:
`MAX_LINE_BYTES = 1024 * 1024`. -/
def MAX_LINE_BYTES : Nat := 1024 * 1024

/-- A token produced by the tokenizer `_iter_tokens`: the source yields
pairs `(is_ansi, text)`; an escape-sequence token carries its raw text,
a display token carries a single character. -/
inductive Token where
  | ansi (seq : List Char)
  | chr (c : Char)
deriving DecidableEq

/-- The raw text a token stands for (`seq` for escape tokens, the single
character for display tokens). -/
def Token.raw : Token → List Char
  | .ansi s => s
  | .chr c => [c]

/-- The CSI scan of `_consume_ansi` (branch `nxt == "["`): absorb
characters until one in `'@'..'~'` inclusive is found (inclusive); if the
line ends first, absorb to end of line.  Returns (absorbed, rest). -/
def _csi_body : List Char → List Char × List Char
  | [] => ([], [])
  | c :: rest =>
    if '@' ≤ c ∧ c ≤ '~' then ([c], rest)
    else (c :: (_csi_body rest).1, (_csi_body rest).2)

/-- The OSC scan of `_consume_ansi` (branch `nxt == "]"`): absorb until a
bell character or the two-character terminator `ESC \`; if the line ends
first, absorb to end of line.  Returns (absorbed, rest). -/
def _osc_body : List Char → List Char × List Char
  | [] => ([], [])
  | c :: rest =>
    if c = '\x07' then ([c], rest)
    else if c = ESC ∧ rest.head? = some '\\' then ([c, '\\'], rest.tail)
    else (c :: (_osc_body rest).1, (_osc_body rest).2)

/-- `_consume_ansi` of the source, taking the part of the line after the
escape character (the source passes the whole line and the index of the
escape character; here the escape character is re-attached by the caller).
Returns (absorbed-after-ESC, rest). -/
def _consume_ansi_tail : List Char → List Char × List Char
  | [] => ([], [])
  | nxt :: rest =>
    if nxt = '[' then (nxt :: (_csi_body rest).1, (_csi_body rest).2)
    else if nxt = ']' then (nxt :: (_osc_body rest).1, (_osc_body rest).2)
    else if nxt = '(' ∨ nxt = ')' ∨ nxt = '#' ∨ nxt = '%' then
      match rest with
      | c :: r => ([nxt, c], r)
      | [] => ([nxt], [])
    else ([nxt], rest)

/-- `_consume_ansi(line, start)` of the source, with the suffix of the line
from the escape character as input: returns (escape sequence, rest). -/
def _consume_ansi (l : List Char) : List Char × List Char :=
  match l with
  | [] => ([], [])
  | e :: rest => (e :: (_consume_ansi_tail rest).1, (_consume_ansi_tail rest).2)

/-- Worker for `_iter_tokens` with fuel; one unit of fuel per produced
token, and every token consumes at least one character, so fuel equal to
the line length is always enough. -/
def _iter_tokens_go : Nat → List Char → List Token
  | 0, _ => []
  | _, [] => []
  | fuel + 1, c :: rest =>
    if c = ESC then
      Token.ansi (c :: (_consume_ansi_tail rest).1) ::
        _iter_tokens_go fuel (_consume_ansi_tail rest).2
    else
      Token.chr c :: _iter_tokens_go fuel rest

/-- `_iter_tokens(line)` of the source: split a line into escape-sequence
tokens and single display characters, left to right. -/
def _iter_tokens (line : List Char) : List Token :=
  _iter_tokens_go line.length line

/-- Model of the Python stdlib test `unicodedata.combining(ch) != 0`,
restricted to a correct table for the codepoints exercised in this file:
all codepoints below U+0300 have combining class 0, and every codepoint in
the block U+0300..U+036F has a nonzero combining class. -/
abbrev combiningNonzero (code : Nat) : Prop :=
  0x300 ≤ code ∧ code ≤ 0x36F

/-- Model of the Python stdlib test `unicodedata.category(ch) == "Cf"`,
restricted to a correct table for the codepoints exercised in this file
(a few well-known format-character ranges; every codepoint of printable
ASCII and of the CJK range used below is not Cf). -/
abbrev isCf (code : Nat) : Prop :=
  code = 0xAD ∨ (0x600 ≤ code ∧ code ≤ 0x605) ∨
    (0x200B ≤ code ∧ code ≤ 0x200F) ∨ (0x2060 ≤ code ∧ code ≤ 0x2064) ∨
    code = 0xFEFF

/-- Model of the Python stdlib test
`unicodedata.east_asian_width(ch) in ("W", "F")`, restricted to a correct
table of well-known Wide/Fullwidth ranges; printable ASCII and the
combining range used below are outside every listed range. -/
abbrev eastAsianWF (code : Nat) : Prop :=
  (0x1100 ≤ code ∧ code ≤ 0x115F) ∨ (0x3041 ≤ code ∧ code ≤ 0x30FF) ∨
    (0x3400 ≤ code ∧ code ≤ 0x4DBF) ∨ (0x4E00 ≤ code ∧ code ≤ 0x9FFF) ∨
    (0xAC00 ≤ code ∧ code ≤ 0xD7A3) ∨ (0xF900 ≤ code ∧ code ≤ 0xFAFF) ∨
    (0xFF00 ≤ code ∧ code ≤ 0xFF60) ∨ (0xFFE0 ≤ code ∧ code ≤ 0xFFE6)

/-- `_char_width(ch)` of the source, in its built-in branch (`wcwidth is
None`): control and C1 characters yield 0, combining marks and format
characters yield 0, East-Asian Wide/Fullwidth characters yield 2, all else
yields 1.  (The `wcwidth` branch agrees on every character used in this
file.) -/
def _char_width (ch : Char) : Nat :=
  if ch.toNat < 0x20 ∨ (0x7f ≤ ch.toNat ∧ ch.toNat < 0xa0) then 0
  else if combiningNonzero ch.toNat ∨ isCf ch.toNat then 0
  else if eastAsianWF ch.toNat then 2
  else 1

/-- Sum of the widths of the display tokens, in order; the loop body of
`visible_width`. -/
def tokensWidth : List Token → Nat
  | [] => 0
  | Token.ansi _ :: ts => tokensWidth ts
  | Token.chr c :: ts => _char_width c + tokensWidth ts

/-- `visible_width(line)` of the source: total display width of a line,
escape-sequence tokens contributing nothing. -/
def visible_width (line : List Char) : Nat :=
  tokensWidth (_iter_tokens line)

/-- The reset sequence the slicer appends; source: `ESC + "[0m"`. -/
def resetSeq : List Char := [ESC, '[', '0', 'm']

/-- The token loop of `slice_ansi`, with the running state of the source
loop as arguments: `pos` the running visible column, `vis` the consumed
window width, `started` whether the first in-window character has been
emitted, `pfx` the buffered escape-sequence text, `out` the output so
far. -/
def slice_go (start_col width : Int) :
    List Token → Int → Int → Bool → List Char → List Char → List Char
  | [], _, _, started, _, out => if started then out ++ resetSeq else []
  | Token.ansi s :: ts, pos, vis, started, pfx, out =>
    if started then slice_go start_col width ts pos vis started pfx (out ++ s)
    else slice_go start_col width ts pos vis started (pfx ++ s) out
  | Token.chr c :: ts, pos, vis, started, pfx, out =>
    if (_char_width c : Int) ≤ 0 then
      if started then slice_go start_col width ts pos vis started pfx (out ++ [c])
      else slice_go start_col width ts pos vis started pfx out
    else if pos + (_char_width c : Int) ≤ start_col then
      slice_go start_col width ts (pos + (_char_width c : Int)) vis started pfx out
    else if width ≤ vis + (_char_width c : Int) then
      ((if started then out else out ++ pfx) ++ [c]) ++ resetSeq
    else
      slice_go start_col width ts (pos + (_char_width c : Int))
        (vis + (_char_width c : Int)) true pfx
        ((if started then out else out ++ pfx) ++ [c])

/-- `slice_ansi(line, start_col, width)` of the source. -/
def slice_ansi (line : List Char) (start_col width : Int) : List Char :=
  if width ≤ 0 then []
  else slice_go start_col width (_iter_tokens line) 0 0 false [] []

/-- The (column, width) of each display token of a token list, with the
running visible column threaded exactly as `slice_ansi` threads `pos`
(zero-width characters advance it by zero). -/
def charCols : List Token → Int → List (Int × Nat)
  | [], _ => []
  | Token.ansi _ :: ts, pos => charCols ts pos
  | Token.chr c :: ts, pos =>
    (pos, _char_width c) :: charCols ts (pos + (_char_width c : Int))

/-- A display character of column `pc.1` and width `pc.2` has at least one
of its columns inside the window `[s, s + w)`. -/
abbrev fallsInWindow (s w : Int) (pc : Int × Nat) : Prop :=
  0 < pc.2 ∧ s < pc.1 + (pc.2 : Int) ∧ pc.1 < s + w

/-- Total visible-column advance of a token list (the value of `pos` after
`slice_ansi` has skipped all of it). -/
def visAdv : List Token → Nat
  | [] => 0
  | Token.ansi _ :: ts => visAdv ts
  | Token.chr c :: ts => _char_width c + visAdv ts

/-- Concatenation of the raw text of the escape-sequence tokens of a token
list (the value of the slicer's buffered text after skipping it). -/
def ansiJoin : List Token → List Char
  | [] => []
  | Token.ansi s :: ts => s ++ ansiJoin ts
  | Token.chr _ :: ts => ansiJoin ts

/-- The logical key actions of `parse_keys`; the source uses the strings
"left", "right", "quit". -/
inductive KeyAction where
  | left
  | right
  | quit
deriving DecidableEq

/-- The scan of the generic-CSI branch of `parse_keys`: skip bytes until
one in `0x40..0x7e` is found, returning it with the remaining bytes, or
none when the buffer ends first. -/
def csiScan : List Nat → Option (Nat × List Nat)
  | [] => none
  | b :: rest =>
    if 0x40 ≤ b ∧ b ≤ 0x7e then some (b, rest)
    else csiScan rest

/-- The loop of `parse_keys`, with fuel; each iteration consumes at least
one byte, so fuel equal to the buffer length is always enough.  Mirrors
the source: ETX appends quit, the four exact arrow forms append their
action, a generic `ESC [` sequence is scanned for its final byte (kept as
remainder when the buffer ends before a final byte), any other byte -
including a lone trailing ESC - is consumed and discarded. -/
def parse_keys_go : Nat → List Nat → List KeyAction → List KeyAction × List Nat
  | 0, buf, acc => (acc, buf)
  | fuel + 1, buf, acc =>
    match buf with
    | [] => (acc, [])
    | 0x1b :: 0x5b :: 0x43 :: r => parse_keys_go fuel r (acc ++ [KeyAction.right])
    | 0x1b :: 0x5b :: 0x44 :: r => parse_keys_go fuel r (acc ++ [KeyAction.left])
    | 0x1b :: 0x4f :: 0x43 :: r => parse_keys_go fuel r (acc ++ [KeyAction.right])
    | 0x1b :: 0x4f :: 0x44 :: r => parse_keys_go fuel r (acc ++ [KeyAction.left])
    | 0x1b :: 0x5b :: r2 =>
      match csiScan r2 with
      | some (f, r3) =>
        parse_keys_go fuel r3
          (if f = 0x43 then acc ++ [KeyAction.right]
           else if f = 0x44 then acc ++ [KeyAction.left]
           else acc)
      | none => (acc, 0x1b :: 0x5b :: r2)
    | b :: rest =>
      if b = 0x03 then parse_keys_go fuel rest (acc ++ [KeyAction.quit])
      else parse_keys_go fuel rest acc

/-- `parse_keys(buf)` of the source: decode a raw key-byte buffer into a
list of actions and the unconsumed remainder. -/
def parse_keys (buf : List Nat) : List KeyAction × List Nat :=
  parse_keys_go buf.length buf []

/-- One `append` on the line buffer, which the source keeps as
`collections.deque(maxlen=cap)`: append on the right, evicting from the
left whatever exceeds the capacity. -/
def dequeAppend {α : Type} (cap : Nat) (items : List α) (x : α) : List α :=
  (items ++ [x]).drop ((items ++ [x]).length - cap)

/-- The contents of `collections.deque(items, maxlen=cap)`, which the
source uses to resize the line buffer on SIGWINCH: the rightmost `cap`
entries are kept. -/
def dequeFrom {α : Type} (cap : Nat) (items : List α) : List α :=
  items.drop (items.length - cap)

/-- `raw.rstrip(b"\r")` of the source: remove every trailing CR byte. -/
def rstripCr (l : List Nat) : List Nat :=
  (l.reverse.dropWhile (fun b => b = 13)).reverse

/-- `buf.split(b"\n")` of the source: split a byte list on every LF,
producing one more part than there are LF bytes. -/
def splitOnNl : List Nat → List (List Nat)
  | [] => [[]]
  | b :: rest =>
    if b = 10 then [] :: splitOnNl rest
    else
      match splitOnNl rest with
      | [] => [[b]]
      | p :: ps => (b :: p) :: ps

/-- `buf.rfind(b"\n")` of the source: index of the last LF byte, if any. -/
def rfindNl : List Nat → Option Nat
  | [] => none
  | b :: rest =>
    match rfindNl rest with
    | some i => some (i + 1)
    | none => if b = 10 then some 0 else none

/-- The safety-cap loop of `main` (`while len(inbuf) > MAX_LINE_BYTES`),
with the cap as a parameter and fuel (each iteration drops at least one
byte when the cap is positive, so fuel equal to the buffer length is
always enough): while the buffer exceeds the cap, either flush the
complete lines inside the first `cap` bytes, or - when those bytes hold no
LF - force-flush them as one line.  Returns (flushed lines, remaining
buffer). -/
def capLoopGo : Nat → Nat → List Nat → List (List Nat) × List Nat
  | 0, _, inbuf => ([], inbuf)
  | fuel + 1, cap, inbuf =>
    if cap < inbuf.length then
      match rfindNl (inbuf.take cap) with
      | some nl =>
        ((splitOnNl ((inbuf.take cap).take nl)).map rstripCr ++
           (capLoopGo fuel cap (inbuf.drop (nl + 1))).1,
         (capLoopGo fuel cap (inbuf.drop (nl + 1))).2)
      | none =>
        (rstripCr (inbuf.take cap) :: (capLoopGo fuel cap (inbuf.drop cap)).1,
         (capLoopGo fuel cap (inbuf.drop cap)).2)
    else ([], inbuf)

/-- The safety-cap loop with its fuel instantiated. -/
def capLoop (cap : Nat) (inbuf : List Nat) : List (List Nat) × List Nat :=
  capLoopGo inbuf.length cap inbuf

/-- Processing of one stdin chunk by `main`: append the chunk to the
retained fragment, run the safety-cap loop, then flush every complete line
and retain the part after the last LF.  Returns (flushed lines in order,
retained fragment).  The source decodes each flushed byte line to a string
before appending it to the line buffer; the decoding is irrelevant to the
claims below and the lines are kept as byte lists. -/
def processChunk (cap : Nat) (inbuf chunk : List Nat) :
    List (List Nat) × List Nat :=
  ((capLoop cap (inbuf ++ chunk)).1 ++
     ((splitOnNl (capLoop cap (inbuf ++ chunk)).2).dropLast.map rstripCr),
   (splitOnNl (capLoop cap (inbuf ++ chunk)).2).getLastD [])

/-! ## Tokenizer lemmas -/

theorem csi_body_append (l : List Char) :
    (_csi_body l).1 ++ (_csi_body l).2 = l := by
  induction l with
  | nil => simp [_csi_body]
  | cons c rest ih =>
    by_cases h : '@' ≤ c ∧ c ≤ '~'
    · simp [_csi_body, h]
    · simp [_csi_body, h, ih]

theorem csi_body_len (l : List Char) :
    (_csi_body l).2.length ≤ l.length := by
  induction l with
  | nil => simp [_csi_body]
  | cons c rest ih =>
    by_cases h : '@' ≤ c ∧ c ≤ '~'
    · simp [_csi_body, h]
    · simp only [_csi_body, if_neg h, List.length_cons]
      omega

theorem osc_body_append (l : List Char) :
    (_osc_body l).1 ++ (_osc_body l).2 = l := by
  induction l with
  | nil => simp [_osc_body]
  | cons c rest ih =>
    by_cases h7 : c = '\x07'
    · simp [_osc_body, h7]
    · by_cases he : c = ESC ∧ rest.head? = some '\\'
      · cases rest with
        | nil => simp at he
        | cons x r2 =>
          obtain ⟨he1, he2⟩ := he
          simp only [List.head?_cons, Option.some.injEq] at he2
          subst he1
          subst he2
          have hstep : _osc_body (ESC :: '\\' :: r2) = ([ESC, '\\'], r2) := rfl
          simp [hstep]
      · simp [_osc_body, h7, he, ih]

theorem osc_body_len (l : List Char) :
    (_osc_body l).2.length ≤ l.length := by
  induction l with
  | nil => simp [_osc_body]
  | cons c rest ih =>
    by_cases h7 : c = '\x07'
    · simp [_osc_body, h7]
    · by_cases he : c = ESC ∧ rest.head? = some '\\'
      · simp only [_osc_body, if_neg h7, if_pos he, List.length_cons]
        have := List.length_tail rest
        omega
      · simp only [_osc_body, if_neg h7, if_neg he, List.length_cons]
        omega

theorem consume_tail_append (l : List Char) :
    (_consume_ansi_tail l).1 ++ (_consume_ansi_tail l).2 = l := by
  cases l with
  | nil => simp [_consume_ansi_tail]
  | cons nxt rest =>
    by_cases hb : nxt = '['
    · simp [_consume_ansi_tail, hb, csi_body_append]
    · by_cases hc : nxt = ']'
      · simp [_consume_ansi_tail, hb, hc, osc_body_append]
      · by_cases hd : nxt = '(' ∨ nxt = ')' ∨ nxt = '#' ∨ nxt = '%'
        · cases rest <;> simp [_consume_ansi_tail, hb, hc, hd]
        · simp [_consume_ansi_tail, hb, hc, hd]

theorem consume_tail_len (l : List Char) :
    (_consume_ansi_tail l).2.length ≤ l.length := by
  cases l with
  | nil => simp [_consume_ansi_tail]
  | cons nxt rest =>
    by_cases hb : nxt = '['
    · simp only [_consume_ansi_tail, if_pos hb, List.length_cons]
      have := csi_body_len rest
      omega
    · by_cases hc : nxt = ']'
      · simp only [_consume_ansi_tail, if_neg hb, if_pos hc, List.length_cons]
        have := osc_body_len rest
        omega
      · by_cases hd : nxt = '(' ∨ nxt = ')' ∨ nxt = '#' ∨ nxt = '%'
        · cases rest <;>
            simp only [_consume_ansi_tail, if_neg hb, if_neg hc, if_pos hd,
              List.length_cons, List.length_nil] <;> omega
        · simp only [_consume_ansi_tail, if_neg hb, if_neg hc, if_neg hd,
            List.length_cons]
          omega

theorem iter_tokens_go_flatten :
    ∀ (fuel : Nat) (line : List Char), line.length ≤ fuel →
      ((_iter_tokens_go fuel line).map Token.raw).flatten = line := by
  intro fuel
  induction fuel with
  | zero =>
    intro line h
    have : line = [] := List.eq_nil_of_length_eq_zero (Nat.le_zero.mp h)
    subst this
    simp [_iter_tokens_go]
  | succ fuel ih =>
    intro line h
    cases line with
    | nil => simp [_iter_tokens_go]
    | cons c rest =>
      simp only [List.length_cons, Nat.succ_le_succ_iff] at h
      by_cases hc : c = ESC
      · simp only [_iter_tokens_go, if_pos hc, List.map_cons, List.flatten_cons,
          Token.raw]
        rw [ih _ (le_trans (consume_tail_len rest) h)]
        simp [consume_tail_append rest]
      · simp only [_iter_tokens_go, if_neg hc, List.map_cons, List.flatten_cons,
          Token.raw]
        rw [ih rest h]
        simp

theorem csi_body_final (l : List Char) :
    (_csi_body l).2 ≠ [] →
      ∃ pre f, (_csi_body l).1 = pre ++ [f] ∧ '@' ≤ f ∧ f ≤ '~' := by
  induction l with
  | nil => simp [_csi_body]
  | cons c rest ih =>
    by_cases h : '@' ≤ c ∧ c ≤ '~'
    · intro _
      exact ⟨[], c, by simp [_csi_body, h], h.1, h.2⟩
    · intro hne
      simp only [_csi_body, if_neg h] at hne ⊢
      obtain ⟨pre, f, h1, h2, h3⟩ := ih hne
      exact ⟨c :: pre, f, by simp [h1], h2, h3⟩

theorem osc_body_final (l : List Char) :
    (_osc_body l).2 ≠ [] →
      (∃ pre, (_osc_body l).1 = pre ++ ['\x07']) ∨
        (∃ pre, (_osc_body l).1 = pre ++ [ESC, '\\']) := by
  induction l with
  | nil => simp [_osc_body]
  | cons c rest ih =>
    by_cases h7 : c = '\x07'
    · intro _
      exact Or.inl ⟨[], by simp [_osc_body, h7]⟩
    · by_cases he : c = ESC ∧ rest.head? = some '\\'
      · intro _
        refine Or.inr ⟨[], ?_⟩
        obtain ⟨he1, he2⟩ := he
        subst he1
        simp [_osc_body, h7, he2]
      · intro hne
        simp only [_osc_body, if_neg h7, if_neg he] at hne ⊢
        rcases ih hne with ⟨pre, h1⟩ | ⟨pre, h1⟩
        · exact Or.inl ⟨c :: pre, by simp [h1]⟩
        · exact Or.inr ⟨c :: pre, by simp [h1]⟩

/-- Claim C5: the tokenizer consumes the entire line exactly once, left to
right - concatenating the raw text of its tokens in order yields the
original line - and no token is a half escape sequence when the full
sequence is present: whenever the CSI scan stops before the end of the
line its token ends with a final character in `'@'..'~'`, and whenever the
OSC scan stops before the end of the line its token ends with the bell
character or with `ESC \`. -/
theorem tokens_join_exact :
    (∀ line : List Char, ((_iter_tokens line).map Token.raw).flatten = line) ∧
    (∀ body : List Char, (_csi_body body).2 ≠ [] →
      ∃ pre f, (_csi_body body).1 = pre ++ [f] ∧ '@' ≤ f ∧ f ≤ '~') ∧
    (∀ body : List Char, (_osc_body body).2 ≠ [] →
      (∃ pre, (_osc_body body).1 = pre ++ ['\x07']) ∨
        (∃ pre, (_osc_body body).1 = pre ++ [ESC, '\\'])) :=
  ⟨fun line => iter_tokens_go_flatten line.length line le_rfl,
   csi_body_final, osc_body_final⟩

/-- Witness for C5 at a concrete line and a concrete CSI body. -/
theorem tokens_join_exact_witness :
    ((_iter_tokens (("\x1b[31mA").data)).map Token.raw).flatten =
        ("\x1b[31mA").data ∧
      ∃ pre f, (_csi_body (("31mA").data)).1 = pre ++ [f] ∧ '@' ≤ f ∧ f ≤ '~' :=
  ⟨tokens_join_exact.1 (("\x1b[31mA").data),
   tokens_join_exact.2.1 (("31mA").data) (by decide)⟩

/-! ## Width lemmas -/

theorem char_width_printable (c : Char) (h1 : 0x20 ≤ c.toNat)
    (h2 : c.toNat ≤ 0x7e) : _char_width c = 1 := by
  simp only [_char_width]
  rw [if_neg (by omega), if_neg (by simp only [combiningNonzero, isCf]; omega),
    if_neg (by simp only [eastAsianWF]; omega)]

theorem visible_width_go_printable :
    ∀ (fuel : Nat) (l : List Char), l.length ≤ fuel →
      (∀ c ∈ l, 0x20 ≤ c.toNat ∧ c.toNat ≤ 0x7e) →
      tokensWidth (_iter_tokens_go fuel l) = l.length := by
  intro fuel
  induction fuel with
  | zero =>
    intro l h _
    have : l = [] := List.eq_nil_of_length_eq_zero (Nat.le_zero.mp h)
    subst this
    simp [_iter_tokens_go, tokensWidth]
  | succ fuel ih =>
    intro l h hall
    cases l with
    | nil => simp [_iter_tokens_go, tokensWidth]
    | cons c rest =>
      simp only [List.length_cons, Nat.succ_le_succ_iff] at h
      have hc : ¬ c = ESC := by
        intro hc
        subst hc
        have h1 := (hall ESC (List.mem_cons_self _ _)).1
        have h2 : ESC.toNat = 27 := by decide
        omega
      have hw := char_width_printable c (hall c (List.mem_cons_self _ _)).1
        (hall c (List.mem_cons_self _ _)).2
      simp only [_iter_tokens_go, if_neg hc, tokensWidth, hw, List.length_cons]
      rw [ih rest h (fun d hd => hall d (List.mem_cons_of_mem _ hd))]
      omega

/-- Claim C9: for every string consisting only of printable ASCII
characters (which in particular contains no escape sequences), the visible
width equals the length in characters. -/
theorem ascii_width_eq_length :
    ∀ line : List Char, (∀ c ∈ line, 0x20 ≤ c.toNat ∧ c.toNat ≤ 0x7e) →
      visible_width line = line.length :=
  fun line h => visible_width_go_printable line.length line le_rfl h

/-- Witness for C9 at a concrete printable-ASCII line. -/
theorem ascii_width_eq_length_witness :
    visible_width (("HELLO WORLD").data) = (("HELLO WORLD").data).length :=
  ascii_width_eq_length (("HELLO WORLD").data) (by decide)

/-! ## Slicer lemmas -/

theorem slice_go_chr_skip (s w : Int) (c : Char) (ts : List Token)
    (pos vis : Int) (started : Bool) (pfx out : List Char)
    (h0 : ¬ (_char_width c : Int) ≤ 0)
    (hsk : pos + (_char_width c : Int) ≤ s) :
    slice_go s w (Token.chr c :: ts) pos vis started pfx out =
      slice_go s w ts (pos + (_char_width c : Int)) vis started pfx out := by
  simp only [slice_go]
  rw [if_neg h0, if_pos hsk]

theorem slice_go_chr_break (s w : Int) (c : Char) (ts : List Token)
    (pos vis : Int) (started : Bool) (pfx out : List Char)
    (h0 : ¬ (_char_width c : Int) ≤ 0)
    (hsk : ¬ pos + (_char_width c : Int) ≤ s)
    (hbr : w ≤ vis + (_char_width c : Int)) :
    slice_go s w (Token.chr c :: ts) pos vis started pfx out =
      ((if started then out else out ++ pfx) ++ [c]) ++ resetSeq := by
  simp only [slice_go]
  rw [if_neg h0, if_neg hsk, if_pos hbr]

theorem slice_go_chr_cont (s w : Int) (c : Char) (ts : List Token)
    (pos vis : Int) (started : Bool) (pfx out : List Char)
    (h0 : ¬ (_char_width c : Int) ≤ 0)
    (hsk : ¬ pos + (_char_width c : Int) ≤ s)
    (hbr : ¬ w ≤ vis + (_char_width c : Int)) :
    slice_go s w (Token.chr c :: ts) pos vis started pfx out =
      slice_go s w ts (pos + (_char_width c : Int))
        (vis + (_char_width c : Int)) true pfx
        ((if started then out else out ++ pfx) ++ [c]) := by
  simp only [slice_go]
  rw [if_neg h0, if_neg hsk, if_neg hbr]

theorem slice_go_started (s w : Int) :
    ∀ (ts : List Token) (pos vis : Int) (pfx out : List Char),
      ∃ mid, slice_go s w ts pos vis true pfx out = (out ++ mid) ++ resetSeq := by
  intro ts
  induction ts with
  | nil =>
    intro pos vis pfx out
    exact ⟨[], by simp [slice_go]⟩
  | cons t ts ih =>
    intro pos vis pfx out
    cases t with
    | ansi sq =>
      obtain ⟨mid, hm⟩ := ih pos vis pfx (out ++ sq)
      exact ⟨sq ++ mid, by simp [slice_go, hm]⟩
    | chr c =>
      by_cases h0 : (_char_width c : Int) ≤ 0
      · obtain ⟨mid, hm⟩ := ih pos vis pfx (out ++ [c])
        exact ⟨c :: mid, by simp [slice_go, h0, hm]⟩
      · by_cases hskip : pos + (_char_width c : Int) ≤ s
        · obtain ⟨mid, hm⟩ := ih (pos + (_char_width c : Int)) vis pfx out
          exact ⟨mid, by simp [slice_go, h0, hskip, hm]⟩
        · by_cases hbreak : w ≤ vis + (_char_width c : Int)
          · exact ⟨[c], by simp [slice_go, h0, hskip, hbreak]⟩
          · obtain ⟨mid, hm⟩ := ih (pos + (_char_width c : Int))
              (vis + (_char_width c : Int)) pfx (out ++ [c])
            exact ⟨c :: mid, by simp [slice_go, h0, hskip, hbreak, hm]⟩

theorem slice_go_skip_all (s w : Int) :
    ∀ (ts : List Token) (pos : Int) (pfx : List Char),
      pos ≤ s → 0 < w →
      (∀ pc ∈ charCols ts pos, ¬ fallsInWindow s w pc) →
      slice_go s w ts pos 0 false pfx [] = [] := by
  intro ts
  induction ts with
  | nil =>
    intro pos pfx _ _ _
    simp [slice_go]
  | cons t ts ih =>
    intro pos pfx hpos hw hall
    cases t with
    | ansi sq =>
      simp only [slice_go, Bool.false_eq_true, if_false]
      exact ih pos (pfx ++ sq) hpos hw (by simpa [charCols] using hall)
    | chr c =>
      by_cases h0 : (_char_width c : Int) ≤ 0
      · have hz : (_char_width c : Int) = 0 := by omega
        simp only [slice_go, if_pos h0, Bool.false_eq_true, if_false]
        apply ih pos pfx hpos hw
        intro pc hpc
        apply hall pc
        simp [charCols, hz, hpc]
      · have hhead := hall (pos, _char_width c) (by simp [charCols])
        have hskip : pos + (_char_width c : Int) ≤ s := by
          simp only [fallsInWindow, not_and, not_lt] at hhead
          have h1 : 0 < _char_width c := by omega
          have h2 : pos < s + w := by omega
          by_contra hcon
          have := hhead h1 (by omega)
          omega
        simp only [slice_go, if_neg h0, if_pos hskip]
        apply ih (pos + (_char_width c : Int)) pfx hskip hw
        intro pc hpc
        apply hall pc
        simp [charCols, hpc]

theorem slice_go_hits (s w : Int) :
    ∀ (ts : List Token) (pos : Int) (pfx : List Char),
      pos ≤ s → 0 < w →
      (∃ pc ∈ charCols ts pos, fallsInWindow s w pc) →
      ∃ pre, slice_go s w ts pos 0 false pfx [] = pre ++ resetSeq := by
  intro ts
  induction ts with
  | nil =>
    intro pos pfx _ _ hex
    simp [charCols] at hex
  | cons t ts ih =>
    intro pos pfx hpos hw hex
    cases t with
    | ansi sq =>
      simp only [slice_go, Bool.false_eq_true, if_false]
      exact ih pos (pfx ++ sq) hpos hw (by simpa [charCols] using hex)
    | chr c =>
      by_cases h0 : (_char_width c : Int) ≤ 0
      · have hz : (_char_width c : Int) = 0 := by omega
        simp only [slice_go, if_pos h0, Bool.false_eq_true, if_false]
        apply ih pos pfx hpos hw
        obtain ⟨pc, hpc, hfall⟩ := hex
        simp only [charCols, List.mem_cons] at hpc
        rcases hpc with rfl | hpc
        · exfalso
          have : (0 : Nat) < _char_width c := hfall.1
          omega
        · exact ⟨pc, by simpa [hz] using hpc, hfall⟩
      · by_cases hskip : pos + (_char_width c : Int) ≤ s
        · simp only [slice_go, if_neg h0, if_pos hskip]
          apply ih (pos + (_char_width c : Int)) pfx hskip hw
          obtain ⟨pc, hpc, hfall⟩ := hex
          simp only [charCols, List.mem_cons] at hpc
          rcases hpc with rfl | hpc
          · exfalso
            have := hfall.2.1
            simp at this
            omega
          · exact ⟨pc, hpc, hfall⟩
        · by_cases hbreak : w ≤ 0 + (_char_width c : Int)
          · rw [slice_go_chr_break s w c ts pos 0 false pfx [] h0 hskip hbreak]
            simp only [Bool.false_eq_true, if_false, List.nil_append]
            exact ⟨pfx ++ [c], rfl⟩
          · rw [slice_go_chr_cont s w c ts pos 0 false pfx [] h0 hskip hbreak]
            simp only [Bool.false_eq_true, if_false, List.nil_append]
            obtain ⟨mid, hm⟩ := slice_go_started s w ts
              (pos + (_char_width c : Int)) (0 + (_char_width c : Int)) pfx
              (pfx ++ [c])
            rw [hm]
            exact ⟨(pfx ++ [c]) ++ mid, rfl⟩

/-- Claim C3: for every line, start column and width, the slice is empty
exactly when the width is nonpositive or no visible character of the line
has a column inside the window `[startColumn, startColumn + width)`; and a
non-empty slice always ends with the explicit reset sequence, whether or
not a reset was present in the source line. -/
theorem slice_empty_iff_reset :
    ∀ (line : List Char) (s : Nat) (w : Int),
      (slice_ansi line (s : Int) w = [] ↔
        (w ≤ 0 ∨
          ∀ pc ∈ charCols (_iter_tokens line) 0, ¬ fallsInWindow (s : Int) w pc)) ∧
      (slice_ansi line (s : Int) w ≠ [] →
        ∃ pre, slice_ansi line (s : Int) w = pre ++ resetSeq) := by
  intro line s w
  by_cases hw : w ≤ 0
  · refine ⟨?_, ?_⟩
    · simp [slice_ansi, hw]
    · intro h
      exact absurd (by simp [slice_ansi, hw]) h
  · have hw' : 0 < w := by omega
    have hs0 : (0 : Int) ≤ (s : Int) := Int.ofNat_nonneg s
    refine ⟨⟨?_, ?_⟩, ?_⟩
    · intro hempty
      refine Or.inr ?_
      intro pc hpc
      by_contra hfall
      obtain ⟨pre, hpre⟩ := slice_go_hits (s : Int) w (_iter_tokens line) 0 []
        hs0 hw' ⟨pc, hpc, hfall⟩
      simp only [slice_ansi, if_neg hw] at hempty
      rw [hpre] at hempty
      simp [resetSeq] at hempty
    · intro h
      rcases h with hw0 | hall
      · exact absurd hw0 hw
      · simp only [slice_ansi, if_neg hw]
        exact slice_go_skip_all (s : Int) w _ 0 [] hs0 hw' hall
    · intro hne
      by_cases hfall :
        ∃ pc ∈ charCols (_iter_tokens line) 0, fallsInWindow (s : Int) w pc
      · obtain ⟨pre, hpre⟩ := slice_go_hits (s : Int) w _ 0 [] hs0 hw' hfall
        refine ⟨pre, ?_⟩
        simp only [slice_ansi, if_neg hw]
        exact hpre
      · exfalso
        apply hne
        simp only [slice_ansi, if_neg hw]
        apply slice_go_skip_all (s : Int) w _ 0 [] hs0 hw'
        intro pc hpc hf
        exact hfall ⟨pc, hpc, hf⟩

/-- Witness for C3: a non-empty slice of a concrete line ends with the
reset sequence. -/
theorem slice_empty_iff_reset_witness :
    ∃ pre, slice_ansi (("AB").data) ((0 : Nat) : Int) 1 = pre ++ resetSeq :=
  (slice_empty_iff_reset (("AB").data) 0 1).2 (by decide)

theorem slice_go_preWindow (s w : Int) :
    ∀ (ts1 ts2 : List Token) (pos : Int) (pfx : List Char),
      (∀ pc ∈ charCols ts1 pos, pc.1 + (pc.2 : Int) ≤ s) →
      slice_go s w (ts1 ++ ts2) pos 0 false pfx [] =
        slice_go s w ts2 (pos + (visAdv ts1 : Int)) 0 false
          (pfx ++ ansiJoin ts1) [] := by
  intro ts1
  induction ts1 with
  | nil =>
    intro ts2 pos pfx _
    simp [visAdv, ansiJoin]
  | cons t ts1 ih =>
    intro ts2 pos pfx hall
    cases t with
    | ansi sq =>
      rw [List.cons_append]
      rw [show slice_go s w (Token.ansi sq :: (ts1 ++ ts2)) pos 0 false pfx [] =
          slice_go s w (ts1 ++ ts2) pos 0 false (pfx ++ sq) [] from by
        simp [slice_go]]
      rw [ih ts2 pos (pfx ++ sq) (by simpa [charCols] using hall)]
      simp [visAdv, ansiJoin]
    | chr c =>
      by_cases h0 : (_char_width c : Int) ≤ 0
      · have hz : (_char_width c : Int) = 0 := by omega
        have htail : ∀ pc ∈ charCols ts1 pos, pc.1 + (pc.2 : Int) ≤ s := by
          intro pc hpc
          apply hall pc
          simp only [charCols, List.mem_cons]
          right
          rw [hz, add_zero]
          exact hpc
        rw [List.cons_append]
        rw [show slice_go s w (Token.chr c :: (ts1 ++ ts2)) pos 0 false pfx [] =
            slice_go s w (ts1 ++ ts2) pos 0 false pfx [] from by
          simp only [slice_go, if_pos h0, Bool.false_eq_true, if_false]]
        rw [ih ts2 pos pfx htail]
        have hv : ((visAdv (Token.chr c :: ts1) : Nat) : Int) = (visAdv ts1 : Int) := by
          simp only [visAdv]
          omega
        rw [hv]
        simp [ansiJoin]
      · have hw0 : pos + (_char_width c : Int) ≤ s := by
          have := hall (pos, _char_width c) (by simp [charCols])
          simpa using this
        have htail :
            ∀ pc ∈ charCols ts1 (pos + (_char_width c : Int)),
              pc.1 + (pc.2 : Int) ≤ s := by
          intro pc hpc
          apply hall pc
          simp only [charCols, List.mem_cons]
          exact Or.inr hpc
        rw [List.cons_append,
          slice_go_chr_skip s w c (ts1 ++ ts2) pos 0 false pfx [] h0 hw0]
        rw [ih ts2 (pos + (_char_width c : Int)) pfx htail]
        have harith : (pos + (_char_width c : Int)) + (visAdv ts1 : Int) =
            pos + ((visAdv (Token.chr c :: ts1) : Nat) : Int) := by
          simp only [visAdv]
          push_cast
          ring
        rw [harith]
        simp [ansiJoin]

theorem ansiJoin_append (a b : List Token) :
    ansiJoin (a ++ b) = ansiJoin a ++ ansiJoin b := by
  induction a with
  | nil => simp [ansiJoin]
  | cons t a ih => cases t <;> simp [ansiJoin, ih]

theorem slice_first_emit (line : List Char) (s w : Int) (ts1 : List Token)
    (c : Char) (ts2 : List Token) (hw : 0 < w)
    (hline : _iter_tokens line = ts1 ++ Token.chr c :: ts2)
    (hpre : ∀ pc ∈ charCols ts1 0, pc.1 + (pc.2 : Int) ≤ s)
    (hin : s < (visAdv ts1 : Int) + (_char_width c : Int))
    (hc : 0 < _char_width c) :
    ∃ rest, slice_ansi line s w = (ansiJoin ts1 ++ [c]) ++ rest := by
  have h0 : ¬ (_char_width c : Int) ≤ 0 := by
    simp only [not_le]
    exact_mod_cast hc
  have hsk : ¬ (0 + (visAdv ts1 : Int)) + (_char_width c : Int) ≤ s := by omega
  simp only [slice_ansi, if_neg (by omega : ¬ w ≤ 0), hline]
  rw [slice_go_preWindow s w ts1 (Token.chr c :: ts2) 0 [] hpre]
  by_cases hbr : w ≤ 0 + (_char_width c : Int)
  · rw [slice_go_chr_break s w c ts2 (0 + (visAdv ts1 : Int)) 0 false
      ([] ++ ansiJoin ts1) [] h0 hsk hbr]
    refine ⟨resetSeq, ?_⟩
    simp
  · rw [slice_go_chr_cont s w c ts2 (0 + (visAdv ts1 : Int)) 0 false
      ([] ++ ansiJoin ts1) [] h0 hsk hbr]
    simp only [Bool.false_eq_true, if_false, List.nil_append, zero_add]
    obtain ⟨mid, hm⟩ := slice_go_started s w ts2
      ((visAdv ts1 : Int) + (_char_width c : Int)) ((_char_width c : Int))
      (ansiJoin ts1) (ansiJoin ts1 ++ [c])
    rw [hm]
    refine ⟨mid ++ resetSeq, ?_⟩
    simp

/-- Counterexample to claim C4 as stated: in the line "日X" the
double-width character 日 occupies columns 0 and 1, so its running
visible-column position 0 is strictly below the start column 1; the claim
says it must be excluded from the window, yet `slice_ansi` emits it as the
very first character of the output.  The code admits a character whenever
pos + width(char) > startColumn, not only when pos ≥ startColumn. -/
theorem slice_window_start_counterexample :
    charCols (_iter_tokens (("日X").data)) 0 = [(0, 2), (2, 1)] ∧
      (slice_ansi (("日X").data) 1 5).head? = some '日' := by
  decide

/-- Claim C4 (amended): for every line, start column and positive width,
the first visible character emitted is the first display character whose
running column satisfies pos + width(char) > startColumn - for width-1
characters this coincides with pos ≥ startColumn, while a double-width
character straddling the start column is also included - every display
character with pos + width(char) ≤ startColumn is excluded, and every
escape token seen before that first character is buffered and emitted as a
single prefix rather than emitted directly. -/
theorem slice_window_start :
    ∀ (line : List Char) (s : Nat) (w : Int) (ts1 : List Token) (c : Char)
      (ts2 : List Token),
      0 < w →
      _iter_tokens line = ts1 ++ Token.chr c :: ts2 →
      (∀ pc ∈ charCols ts1 0, pc.1 + (pc.2 : Int) ≤ (s : Int)) →
      (s : Int) < (visAdv ts1 : Int) + (_char_width c : Int) →
      0 < _char_width c →
      ∃ rest, slice_ansi line (s : Int) w = (ansiJoin ts1 ++ [c]) ++ rest :=
  fun line s w ts1 c ts2 hw hline hpre hin hc =>
    slice_first_emit line (s : Int) w ts1 c ts2 hw hline hpre hin hc

/-- Witness for C4 (amended) at a concrete line: scrolling one column into
"ESC[31m AB" starts the window at the character A, with the color prefix
buffered and re-emitted. -/
theorem slice_window_start_witness :
    ∃ rest, slice_ansi (("\x1b[31mAB").data) ((1 : Nat) : Int) 3 =
      (ansiJoin [Token.ansi (("\x1b[31m").data), Token.chr 'A'] ++ ['B']) ++ rest :=
  slice_window_start (("\x1b[31mAB").data) 1 3
    [Token.ansi (("\x1b[31m").data), Token.chr 'A'] 'B' []
    (by decide) (by decide) (by decide) (by decide) (by decide)

/-- Claim C10: zero-width characters (combining marks, control characters)
that occur before the first in-window visible character are dropped
entirely by the slicer - the output starts with the buffered escape text
of the tokens around them, in which no display character occurs, followed
by the first in-window character. -/
theorem slice_drops_zero_width_before_window :
    ∀ (line : List Char) (s : Nat) (w : Int) (a : List Token) (z : Char)
      (b : List Token) (c : Char) (ts2 : List Token),
      0 < w →
      _iter_tokens line = a ++ Token.chr z :: (b ++ Token.chr c :: ts2) →
      _char_width z = 0 →
      (∀ pc ∈ charCols (a ++ Token.chr z :: b) 0,
        pc.1 + (pc.2 : Int) ≤ (s : Int)) →
      (s : Int) <
        (visAdv (a ++ Token.chr z :: b) : Int) + (_char_width c : Int) →
      0 < _char_width c →
      ∃ rest,
        slice_ansi line (s : Int) w = (ansiJoin a ++ ansiJoin b) ++ c :: rest := by
  intro line s w a z b c ts2 hw hline hz hpre hin hc
  have hline' :
      _iter_tokens line = (a ++ Token.chr z :: b) ++ Token.chr c :: ts2 := by
    rw [hline]
    simp
  obtain ⟨rest, hr⟩ := slice_first_emit line (s : Int) w
    (a ++ Token.chr z :: b) c ts2 hw hline' hpre hin hc
  refine ⟨rest, ?_⟩
  rw [hr, ansiJoin_append]
  simp [ansiJoin]

/-- Witness for C10 at a concrete line: a combining mark attached to the
character just left of the window does not appear in the output. -/
theorem slice_drops_zero_width_before_window_witness :
    ∃ rest, slice_ansi (("éAB").data) ((1 : Nat) : Int) 2 =
      (ansiJoin [Token.chr 'e'] ++ ansiJoin ([] : List Token)) ++ 'A' :: rest :=
  slice_drops_zero_width_before_window (("éAB").data) 1 2
    [Token.chr 'e'] '́' [] 'A' [Token.chr 'B']
    (by decide) (by decide) (by decide) (by decide) (by decide) (by decide)

/-- Counterexample to claim C1 as stated: on the scenario line the slice
at start column 6 and width 5 is not "WORLD ESC[0m" - the slicer buffers
every escape token seen before the window, including the reset, and emits
the whole buffer as a prefix. -/
theorem slice_scenario_counterexample :
    ¬ (slice_ansi (("\x1b[31mHELLO\x1b[0m WORLD").data) 0 5 =
          (("\x1b[31mHELLO\x1b[0m").data) ∧
        slice_ansi (("\x1b[31mHELLO\x1b[0m WORLD").data) 6 5 =
          (("WORLD\x1b[0m").data)) := by
  decide

/-- Claim C1 (amended): on the line "ESC[31mHELLO ESC[0m WORLD",
slice at (0, 5) returns "ESC[31mHELLO ESC[0m" exactly as claimed, while
slice at (6, 5) returns "ESC[31m ESC[0mWORLD ESC[0m": the escape
sequences seen before column 6 (the color and its reset) are emitted as
the buffered prefix - the net style they establish is the default, but
the prefix text itself is present, not absent. -/
theorem slice_scenario_actual :
    slice_ansi (("\x1b[31mHELLO\x1b[0m WORLD").data) 0 5 =
        (("\x1b[31mHELLO\x1b[0m").data) ∧
      slice_ansi (("\x1b[31mHELLO\x1b[0m WORLD").data) 6 5 =
        (("\x1b[31m\x1b[0mWORLD\x1b[0m").data) := by
  decide

/-! ## Key decoder -/

/-- Claim C2 evaluated at the failing input (code bug): `parse_keys` on a
lone trailing ESC falls through to the consume-one-byte branch, so the ESC
is consumed and discarded instead of being returned as the remainder;
feeding ESC in one call and then, with the (empty) returned remainder
prepended, the bytes `[ C` in the next call therefore yields no action at
all, while the same three bytes in a single call yield exactly one
ScrollRight.  A trailing `ESC [` prefix, by contrast, is kept as the
remainder, which shows the split-read design the lone-ESC case breaks. -/
theorem parse_keys_split_esc :
    parse_keys [0x1b] = ([], []) ∧
      parse_keys ([] ++ [0x5b, 0x43]) = ([], []) ∧
      parse_keys [0x1b, 0x5b, 0x43] = ([KeyAction.right], []) ∧
      parse_keys [0x1b, 0x5b] = ([], [0x1b, 0x5b]) := by
  decide

/-! ## Line buffer -/

theorem dequeAppend_foldl {α : Type} (cap : Nat) :
    ∀ (ls acc : List α), acc.length ≤ cap →
      List.foldl (dequeAppend cap) acc ls =
        (acc ++ ls).drop ((acc ++ ls).length - cap) := by
  intro ls
  induction ls with
  | nil =>
    intro acc hacc
    have h0 : acc.length - cap = 0 := by omega
    simp [h0]
  | cons x ls ih =>
    intro acc hacc
    have hlen : (dequeAppend cap acc x).length ≤ cap := by
      simp only [dequeAppend, List.length_drop, List.length_append,
        List.length_cons, List.length_nil]
      omega
    rw [List.foldl_cons, ih (dequeAppend cap acc x) hlen]
    simp only [dequeAppend, List.length_drop, List.length_append,
      List.length_cons, List.length_nil]
    rw [← List.drop_append_of_le_length
      (by simp only [List.length_append, List.length_cons, List.length_nil]; omega)]
    rw [List.drop_drop]
    have hassoc : acc ++ [x] ++ ls = acc ++ x :: ls := by simp
    rw [hassoc]
    congr 1
    omega

/-- Claim C6: appending more than `cap` lines to a line buffer of capacity
`cap` leaves exactly the most recent `cap` lines, the oldest having been
evicted first. -/
theorem buffer_append_evicts_oldest {α : Type} :
    ∀ (cap : Nat) (ls : List α), 0 < cap → cap < ls.length →
      List.foldl (dequeAppend cap) [] ls = ls.drop (ls.length - cap) := by
  intro cap ls _ _
  have h := dequeAppend_foldl cap ls [] (by simp)
  simpa using h

/-- Witness for C6: capacity 3, lines A,B,C,D appended in order leave
exactly [B, C, D]. -/
theorem buffer_append_evicts_oldest_witness :
    List.foldl (dequeAppend 3) [] (["A", "B", "C", "D"] : List String) =
      ["B", "C", "D"] := by
  have h := buffer_append_evicts_oldest 3 (["A", "B", "C", "D"] : List String)
    (by decide) (by decide)
  rw [h]
  decide

/-- Claim C7: resizing the line buffer never errors (`dequeFrom` is a
total function), always keeps a suffix of the current entries - the most
recent ones - of length `min length newCapacity` (so shrinking truncates
from the oldest end), and keeps every entry when the new capacity is at
least the current length. -/
theorem buffer_resize_keeps_recent {α : Type} :
    ∀ (cap : Nat) (items : List α),
      (∃ dropped, items = dropped ++ dequeFrom cap items) ∧
      (dequeFrom cap items).length = min items.length cap ∧
      (items.length ≤ cap → dequeFrom cap items = items) := by
  intro cap items
  refine ⟨⟨items.take (items.length - cap), ?_⟩, ?_, ?_⟩
  · exact (List.take_append_drop _ _).symm
  · simp only [dequeFrom, List.length_drop]
    omega
  · intro h
    have h0 : items.length - cap = 0 := by omega
    simp [dequeFrom, h0]

/-- Witness for C7: growing a 3-entry buffer to capacity 5 keeps all
entries. -/
theorem buffer_resize_keeps_recent_witness :
    dequeFrom 5 (["A", "B", "C"] : List String) = ["A", "B", "C"] :=
  (buffer_resize_keeps_recent 5 (["A", "B", "C"] : List String)).2.2 (by decide)

/-! ## Safety cap -/

theorem rfindNl_eq_none (l : List Nat) (h : (10 : Nat) ∉ l) :
    rfindNl l = none := by
  induction l with
  | nil => simp [rfindNl]
  | cons b rest ih =>
    simp only [List.mem_cons, not_or] at h
    simp [rfindNl, ih h.2, Ne.symm h.1]

theorem splitOnNl_ne_nil : ∀ l : List Nat, splitOnNl l ≠ [] := by
  intro l
  cases l with
  | nil => simp [splitOnNl]
  | cons b rest =>
    by_cases hb : b = 10
    · simp [splitOnNl, hb]
    · simp only [splitOnNl, if_neg hb]
      cases h : splitOnNl rest <;> simp

theorem splitOnNl_getLastD_le :
    ∀ l : List Nat, ((splitOnNl l).getLastD []).length ≤ l.length := by
  intro l
  induction l with
  | nil => simp [splitOnNl]
  | cons b rest ih =>
    by_cases hb : b = 10
    · simp only [splitOnNl, if_pos hb, List.getLastD_cons]
      exact le_trans ih (by simp)
    · simp only [splitOnNl, if_neg hb]
      cases hs : splitOnNl rest with
      | nil => exact absurd hs (splitOnNl_ne_nil rest)
      | cons p ps =>
        rw [hs] at ih
        cases ps with
        | nil =>
          simp only [List.getLastD_cons] at ih ⊢
          simp only [List.getLastD, List.length_cons]
          simp only [List.getLastD] at ih
          omega
        | cons q qs =>
          simp only [List.getLastD_cons] at ih ⊢
          exact le_trans ih (by simp)

theorem capLoopGo_frag_le :
    ∀ (fuel cap : Nat) (inbuf : List Nat), inbuf.length ≤ fuel → 0 < cap →
      (capLoopGo fuel cap inbuf).2.length ≤ cap := by
  intro fuel
  induction fuel with
  | zero =>
    intro cap inbuf h hcap
    have : inbuf = [] := List.eq_nil_of_length_eq_zero (Nat.le_zero.mp h)
    subst this
    simp [capLoopGo]
  | succ fuel ih =>
    intro cap inbuf h hcap
    by_cases hlen : cap < inbuf.length
    · simp only [capLoopGo, if_pos hlen]
      cases hnl : rfindNl (inbuf.take cap) with
      | none =>
        simp only [hnl]
        exact ih cap (inbuf.drop cap)
          (by simp only [List.length_drop]; omega) hcap
      | some nl =>
        simp only [hnl]
        exact ih cap (inbuf.drop (nl + 1))
          (by simp only [List.length_drop]; omega) hcap
    · simp only [capLoopGo, if_neg hlen]
      omega

theorem capLoopGo_step_none (fuel cap : Nat) (inbuf : List Nat)
    (hlen : cap < inbuf.length) (hnone : rfindNl (inbuf.take cap) = none) :
    (capLoopGo (fuel + 1) cap inbuf).1 =
      rstripCr (inbuf.take cap) :: (capLoopGo fuel cap (inbuf.drop cap)).1 := by
  simp [capLoopGo, if_pos hlen, hnone]

/-- Claim C8: for every positive cap, after processing any chunk the
retained partial-line fragment never exceeds the cap (whenever it would,
lines are flushed first, forcibly when the excess holds no newline), and
an unterminated input of 2 x cap bytes with no newline produces at least
one forced line flush before end of stream. -/
theorem chunk_cap_invariant :
    ∀ cap : Nat, 0 < cap →
      (∀ inbuf chunk : List Nat,
        (processChunk cap inbuf chunk).2.length ≤ cap) ∧
      (∀ chunk : List Nat, chunk.length = 2 * cap → (10 : Nat) ∉ chunk →
        1 ≤ (processChunk cap [] chunk).1.length) := by
  intro cap hcap
  constructor
  · intro inbuf chunk
    have h1 := capLoopGo_frag_le (inbuf ++ chunk).length cap (inbuf ++ chunk)
      le_rfl hcap
    have h2 := splitOnNl_getLastD_le ((capLoop cap (inbuf ++ chunk)).2)
    simp only [processChunk]
    exact le_trans h2 (by simpa [capLoop] using h1)
  · intro chunk hlen2 hmem
    obtain ⟨f, hf⟩ : ∃ f, chunk.length = f + 1 := ⟨chunk.length - 1, by omega⟩
    have hcap2 : cap < chunk.length := by omega
    have hnone : rfindNl (chunk.take cap) = none :=
      rfindNl_eq_none _ (fun hm => hmem (List.take_subset _ _ hm))
    simp only [processChunk, List.nil_append, capLoop]
    rw [hf, capLoopGo_step_none f cap chunk hcap2 hnone]
    simp only [List.length_append, List.length_cons]
    omega

/-- Witness for C8: cap 2, four bytes of input with no newline - the
fragment stays within the cap and one forced flush happens. -/
theorem chunk_cap_invariant_witness :
    (processChunk 2 [] [65, 65, 65, 65]).2.length ≤ 2 ∧
      1 ≤ (processChunk 2 [] [65, 65, 65, 65]).1.length :=
  ⟨(chunk_cap_invariant 2 (by decide)).1 [] [65, 65, 65, 65],
   (chunk_cap_invariant 2 (by decide)).2 [65, 65, 65, 65] (by decide) (by decide)⟩
